import Mathlib

/-
Verification of the `ccfs` numeric helper routines against their
specification.

The repository supplies two MATLAB-Coder-generated C headers:
  - rdivide.h                       declares `rdivide(const emxArray_real_T *x,
                                    double y, emxArray_real_T *z)`
  - growManyTreesCompileTest_rtwutil.h declares `rt_hypotd_snf(double,double)`
                                    and `rt_roundd_snf(double)`
Only the declarations are present; the function bodies and the
`emxArray_real_T` type definition live in files not included here, so every
behavioural definition below is modelled from the specification document
(spec.md), faithful to its words.  Doubles are embedded as an inductive type
with NaN, signed infinities, a negative zero, and exact finite payloads (the
spec constrains no precision beyond IEEE-754 special-value propagation).
-/

set_option linter.unusedVariables false
set_option linter.unusedTactic false

namespace Ccfs

/-- Modelled from the spec: an IEEE-754 double-precision value, as the spec
uses them ("unconstrained IEEE-754 double (may be zero, infinite, or NaN)").
The finite payload is an exact rational; `nzero` is the negative zero, and
`fin 0` the positive zero, so the IEEE sign/zero rules are representable.
The C type `real_T` is defined in `rtwtypes.h`, which is missing from the
sources. -/
inductive EDouble where
  | nan
  | pinf
  | ninf
  | nzero
  | fin (v : ℚ)
deriving DecidableEq, Repr

namespace EDouble

/-- Modelled from the spec: the IEEE-754 sign bit of a value (false = positive). -/
def signBit : EDouble → Bool
  | nan => false
  | pinf => false
  | ninf => true
  | nzero => true
  | fin v => decide (v < 0)

/-- The rational magnitude carried by a zero-or-finite value (0 for the
special values, where it is never consulted). -/
def qval : EDouble → ℚ
  | fin v => v
  | _ => 0

/-- True exactly on `nzero` and on zero-or-finite payloads, i.e. the
non-NaN, non-infinite doubles. -/
def isFinite : EDouble → Bool
  | nan => false
  | pinf => false
  | ninf => false
  | nzero => true
  | fin _ => true

/-- A zero of the given sign (true = negative). -/
def mkZero (s : Bool) : EDouble := if s then nzero else fin 0

/-- An infinity of the given sign (true = negative). -/
def mkInf (s : Bool) : EDouble := if s then ninf else pinf

/-- Modelled from the spec: IEEE-754 double division, the semantics the spec
assigns to each element of `rdivide` ("propagation follows standard
floating-point division rules", "division by zero yields signed infinity or
NaN per IEEE-754, not an error").  The body of the C division is not in the
sources; finite quotients are kept exact. -/
def divD : EDouble → EDouble → EDouble
  | nan, _ => nan
  | _, nan => nan
  | pinf, pinf => nan
  | pinf, ninf => nan
  | ninf, pinf => nan
  | ninf, ninf => nan
  | pinf, b => mkInf (signBit b)
  | ninf, b => mkInf (!signBit b)
  | a, pinf => mkZero (signBit a)
  | a, ninf => mkZero (!signBit a)
  | a, b =>
    if qval b = 0 then
      if qval a = 0 then nan
      else mkInf (xor (signBit a) (signBit b))
    else if qval a = 0 then mkZero (xor (signBit a) (signBit b))
    else fin (qval a / qval b)

end EDouble

/-- Modelled from the spec: round a rational to the nearest integer, halfway
cases away from zero ("rounding halfway cases away from zero (e.g., 2.5 →
3.0, -2.5 → -3.0). Not bankers' rounding"). -/
def roundAway (q : ℚ) : ℚ :=
  if 0 ≤ q then (⌊q + 1/2⌋ : ℤ) else (⌈q - 1/2⌉ : ℤ)

/-- Modelled from the spec: the body of `rt_roundd_snf`, declared in
`growManyTreesCompileTest_rtwutil.h` but not defined in the sources.  "Given
a double `u`, return the nearest integer-valued double, rounding halfway
cases away from zero ... NaN and infinities pass through unchanged."  A
negative input rounding to zero keeps its IEEE sign. -/
def rt_roundd_snf : EDouble → EDouble
  | .nan => .nan
  | .pinf => .pinf
  | .ninf => .ninf
  | .nzero => .nzero
  | .fin v => if roundAway v = 0 ∧ v < 0 then .nzero else .fin (roundAway v)

/-- Modelled from the spec: the dynamically-sized numeric array
`emxArray_real_T` ("a resizable buffer of double-precision values, with an
associated shape/size descriptor", plus an allocated capacity, cf. "resized
if the destination buffer's existing capacity does not match the required
element count").  The C struct is defined in
`growManyTreesCompileTest_types.h`, which is missing from the sources. -/
structure EmxArray where
  data : List EDouble
  size : List ℕ
  allocatedSize : ℕ
deriving DecidableEq, Repr

/-- The element count implied by the size descriptor (product of extents). -/
def elemCount (x : EmxArray) : ℕ := x.size.prod

/-- The data-model invariant: "the element count implied by the size
descriptor equals the number of stored values". -/
def sizeInv (x : EmxArray) : Prop := x.data.length = elemCount x

instance (x : EmxArray) : Decidable (sizeInv x) := by
  unfold sizeInv; infer_instance

/-- Modelled from the spec: the body of `rdivide`, declared in `rdivide.h`
but not defined in the sources.  "Given an input numeric array `x` (any
valid shape, including empty) and scalar `y`, produce output numeric array
`z` with the same shape as `x`, where each element `z[i] = x[i] / y`"; "the
output array's backing storage is (re)allocated to exactly match the
input's element count before writing; prior contents of any reused storage
are overwritten, not merged".  The pre-call output array `z0` models the
reused destination storage; its contents do not influence the result. -/
def rdivide (x : EmxArray) (y : EDouble) (z0 : EmxArray) : EmxArray :=
  { data := x.data.map (fun xi => EDouble.divD xi y)
    size := x.size
    allocatedSize := elemCount x }

/-- Modelled from the spec: the C call `rdivide(x, y, z)` acting on the pair
of arrays in scope.  `x` is received through a `const emxArray_real_T *`
(per the declaration in `rdivide.h`), so only the output array changes. -/
def rdivideCall (x : EmxArray) (y : EDouble) (z0 : EmxArray) :
    EmxArray × EmxArray :=
  (x, rdivide x y z0)

/-- The allocation-failure condition of spec section 7. -/
inductive AllocFailure where
  | allocFailure
deriving DecidableEq, Repr

/-- Modelled from the spec: `rdivide` with the output-storage allocation made
explicit ("the only recoverable failure an implementation must still guard
is allocation failure for the output array's backing storage, which should
be surfaced to the caller as an allocation-failure condition rather than
silently ignored").  `alloc n` reports whether the allocator can provide
storage for `n` elements. -/
def rdivideAlloc (alloc : ℕ → Bool) (x : EmxArray) (y : EDouble)
    (z0 : EmxArray) : Except AllocFailure EmxArray :=
  if alloc (elemCount x) then .ok (rdivide x y z0) else .error .allocFailure

/-- Modelled from the spec: a double for the hypotenuse primitive, whose
exact value involves square roots, so the finite payload is a real number
(an idealised IEEE-754 double with unbounded precision but bounded range).
Signed zeros play no role in the hypot contract, so only a single zero
(`fin 0`) is kept. -/
inductive RDouble where
  | nan
  | pinf
  | ninf
  | fin (v : ℝ)

/-- The largest finite IEEE-754 double, (2^53 - 1) * 2^971 ≈ 1.7976e308;
finite results above this magnitude overflow to infinity. -/
noncomputable def maxDouble : ℝ := (2 ^ 53 - 1) * 2 ^ 971

/-- Modelled from the spec: the body of `rt_hypotd_snf`, declared in
`growManyTreesCompileTest_rtwutil.h` but not defined in the sources.
"Given two finite or infinite doubles `u0`, `u1`, return `sqrt(u0² + u1²)`
computed by a scaling technique that avoids intermediate overflow/underflow:
reduce both operands by the larger magnitude before squaring, then rescale.
Must match standard-library hypot semantics for edge cases (infinities
dominate, NaN propagates) and must not overflow for large
same-sign-magnitude inputs where a naive squared-sum would."  A finite
result larger than `maxDouble` overflows to `pinf`. -/
noncomputable def rt_hypotd_snf : RDouble → RDouble → RDouble
  | .nan, _ => .nan
  | _, .nan => .nan
  | .pinf, _ => .pinf
  | .ninf, _ => .pinf
  | _, .pinf => .pinf
  | _, .ninf => .pinf
  | .fin v0, .fin v1 =>
    let a := |v0|
    let b := |v1|
    let y :=
      if a < b then b * Real.sqrt ((a / b) ^ 2 + 1)
      else if b < a then a * Real.sqrt ((b / a) ^ 2 + 1)
      else a * Real.sqrt 2
    if y ≤ maxDouble then .fin y else .pinf

/-! ### Helper lemmas about rounding -/

theorem roundAway_intCast (n : ℤ) : roundAway (n : ℚ) = n := by
  unfold roundAway
  by_cases h : (0:ℚ) ≤ (n:ℚ)
  · rw [if_pos h]
    have hf : (⌊(n:ℚ) + 1/2⌋ : ℤ) = n := by
      rw [Int.floor_eq_iff]
      constructor <;> push_cast <;> linarith
    rw [hf]
  · rw [if_neg h]
    have hc : (⌈(n:ℚ) - 1/2⌉ : ℤ) = n := by
      rw [Int.ceil_eq_iff]
      constructor <;> push_cast <;> linarith
    rw [hc]

theorem roundAway_isInt (q : ℚ) : ∃ n : ℤ, roundAway q = (n : ℚ) := by
  unfold roundAway
  by_cases h : (0:ℚ) ≤ q
  · exact ⟨_, by rw [if_pos h]⟩
  · exact ⟨_, by rw [if_neg h]⟩

theorem abs_roundAway_sub_le (q : ℚ) : |roundAway q - q| ≤ 1/2 := by
  unfold roundAway
  by_cases h : (0:ℚ) ≤ q
  · rw [if_pos h, abs_le]
    have h1 := Int.floor_le (q + 1/2)
    have h2 := Int.lt_floor_add_one (q + 1/2)
    constructor <;> linarith
  · rw [if_neg h, abs_le]
    have h1 := Int.le_ceil (q - 1/2)
    have h2 := Int.ceil_lt_add_one (q - 1/2)
    constructor <;> linarith

theorem roundAway_tie (q : ℚ) (h : |roundAway q - q| = 1/2) :
    |roundAway q| = |q| + 1/2 := by
  by_cases hq : (0:ℚ) ≤ q
  · have hr : roundAway q = ((⌊q + 1/2⌋ : ℤ) : ℚ) := by
      unfold roundAway; rw [if_pos hq]
    have h2 := Int.lt_floor_add_one (q + 1/2)
    have heq : roundAway q - q = 1/2 := by
      rcases (abs_eq (by norm_num : (0:ℚ) ≤ 1/2)).mp h with h' | h'
      · exact h'
      · exfalso; rw [hr] at h'; linarith
    rw [abs_of_nonneg hq, abs_of_nonneg (by linarith : (0:ℚ) ≤ roundAway q)]
    linarith
  · push_neg at hq
    have hr : roundAway q = ((⌈q - 1/2⌉ : ℤ) : ℚ) := by
      unfold roundAway; rw [if_neg (not_le.mpr hq)]
    have h2 := Int.ceil_lt_add_one (q - 1/2)
    have heq : roundAway q - q = -(1/2) := by
      rcases (abs_eq (by norm_num : (0:ℚ) ≤ 1/2)).mp h with h' | h'
      · exfalso; rw [hr] at h'; linarith
      · exact h'
    rw [abs_of_neg hq, abs_of_neg (by linarith : roundAway q < 0)]
    linarith

theorem rt_roundd_qval (q : ℚ) :
    (rt_roundd_snf (.fin q)).qval = roundAway q := by
  simp only [rt_roundd_snf]
  split_ifs with h
  · simp [EDouble.qval, h.1]
  · rfl

theorem rt_roundd_isFinite (q : ℚ) :
    (rt_roundd_snf (.fin q)).isFinite = true := by
  simp only [rt_roundd_snf]
  split_ifs <;> rfl

/-! ### Claim theorems: rounding -/

/-- C2: for every double `u`, `rt_roundd_snf` returns the nearest
integer-valued double, rounding halfway cases away from zero
(`round(2.5) = 3`, `round(-2.5) = -3`, `round(2.4) = 2`), and NaN and the
infinities pass through unchanged.  For a finite input the result is
finite with an integer value `r` satisfying `|r - u| ≤ 1/2`, and a halfway
case (`|r - u| = 1/2`) is rounded away from zero (`|r| = |u| + 1/2`). -/
theorem rt_roundd_snf_contract :
    (∀ q : ℚ,
      (rt_roundd_snf (.fin q)).isFinite = true ∧
      (∃ n : ℤ, (rt_roundd_snf (.fin q)).qval = (n : ℚ)) ∧
      |(rt_roundd_snf (.fin q)).qval - q| ≤ 1/2 ∧
      (|(rt_roundd_snf (.fin q)).qval - q| = 1/2 →
        |(rt_roundd_snf (.fin q)).qval| = |q| + 1/2)) ∧
    rt_roundd_snf (.fin (5/2)) = .fin 3 ∧
    rt_roundd_snf (.fin (-5/2)) = .fin (-3) ∧
    rt_roundd_snf (.fin (12/5)) = .fin 2 ∧
    rt_roundd_snf .nan = .nan ∧
    rt_roundd_snf .pinf = .pinf ∧
    rt_roundd_snf .ninf = .ninf := by
  refine ⟨fun q => ?_, ?_, ?_, ?_, rfl, rfl, rfl⟩
  · rw [rt_roundd_qval]
    exact ⟨rt_roundd_isFinite q, roundAway_isInt q, abs_roundAway_sub_le q,
      roundAway_tie q⟩
  · norm_num [rt_roundd_snf, roundAway]
  · norm_num [rt_roundd_snf, roundAway, Int.ceil_neg]
  · norm_num [rt_roundd_snf, roundAway]

/-- Witness for C2: the halfway input 5/2 satisfies the tie hypothesis and
is rounded away from zero. -/
theorem rt_roundd_snf_contract_witness :
    |(rt_roundd_snf (.fin (5/2))).qval - 5/2| = 1/2 ∧
    |(rt_roundd_snf (.fin (5/2))).qval| = |(5/2 : ℚ)| + 1/2 := by
  have h : |(rt_roundd_snf (.fin (5/2))).qval - 5/2| = 1/2 := by
    norm_num [rt_roundd_snf, roundAway, EDouble.qval]
  exact ⟨h, (rt_roundd_snf_contract.1 (5/2)).2.2.2 h⟩

/-- C6: `rt_roundd_snf` is idempotent on every finite double. -/
theorem rt_roundd_snf_idempotent (u : EDouble) (h : u.isFinite = true) :
    rt_roundd_snf (rt_roundd_snf u) = rt_roundd_snf u := by
  cases u with
  | nan => simp [EDouble.isFinite] at h
  | pinf => simp [EDouble.isFinite] at h
  | ninf => simp [EDouble.isFinite] at h
  | nzero => rfl
  | fin v =>
    simp only [rt_roundd_snf]
    split_ifs with h1
    · rfl
    · obtain ⟨n, hn⟩ := roundAway_isInt v
      simp only [rt_roundd_snf]
      rw [hn, roundAway_intCast]
      split_ifs with h2
      · exact absurd (h2.1 ▸ h2.2) (lt_irrefl 0)
      · rfl

/-- Witness for C6: the finite input 5/2. -/
theorem rt_roundd_snf_idempotent_witness :
    (EDouble.fin (5/2)).isFinite = true ∧
    rt_roundd_snf (rt_roundd_snf (.fin (5/2))) = rt_roundd_snf (.fin (5/2)) :=
  ⟨rfl, rt_roundd_snf_idempotent (.fin (5/2)) rfl⟩

/-! ### Helper lemmas about division by zero -/

theorem divD_zero_cases (u : EDouble) :
    EDouble.divD u (.fin 0) = .pinf ∨ EDouble.divD u (.fin 0) = .ninf ∨
    EDouble.divD u (.fin 0) = .nan := by
  cases u with
  | nan => right; right; rfl
  | pinf => left; rfl
  | ninf => right; left; rfl
  | nzero => right; right; simp [EDouble.divD, EDouble.qval]
  | fin v =>
    by_cases hv : v = 0
    · subst hv; right; right; simp [EDouble.divD, EDouble.qval]
    · by_cases hneg : v < 0
      · right; left
        simp [EDouble.divD, EDouble.qval, EDouble.signBit, EDouble.mkInf,
          hv, hneg]
      · left
        simp [EDouble.divD, EDouble.qval, EDouble.signBit, EDouble.mkInf,
          hv, hneg]

/-! ### Claim theorems: elementwise divide -/

/-- C1: for every input array `x` (any shape, including empty) and every
nonzero double `y`, `rdivide` returns an array with the same shape and
element count as `x` whose value at every index `i` is `x[i] / y`. -/
theorem rdivide_elementwise (x : EmxArray) (y : EDouble) (z0 : EmxArray)
    (hy : y ≠ .fin 0 ∧ y ≠ .nzero) :
    (rdivide x y z0).size = x.size ∧
    (rdivide x y z0).data.length = x.data.length ∧
    ∀ i : ℕ, (rdivide x y z0).data[i]? =
      Option.map (fun xi => EDouble.divD xi y) x.data[i]? := by
  refine ⟨rfl, by simp [rdivide], fun i => ?_⟩
  simp [rdivide]

/-- Witness for C1: a one-element array divided by the nonzero scalar 2. -/
theorem rdivide_elementwise_witness :
    ((EDouble.fin 2 ≠ EDouble.fin 0 ∧ EDouble.fin 2 ≠ EDouble.nzero) ∧
      ((rdivide ⟨[.fin 6], [1], 1⟩ (.fin 2) ⟨[], [], 0⟩).size = [1] ∧
        (rdivide ⟨[.fin 6], [1], 1⟩ (.fin 2) ⟨[], [], 0⟩).data.length = 1 ∧
        (rdivide ⟨[.fin 6], [1], 1⟩ (.fin 2) ⟨[], [], 0⟩).data[0]? =
          some (EDouble.divD (.fin 6) (.fin 2)))) := by
  have hy : EDouble.fin 2 ≠ EDouble.fin 0 ∧ EDouble.fin 2 ≠ EDouble.nzero := by
    constructor <;> simp
  have h := rdivide_elementwise ⟨[.fin 6], [1], 1⟩ (.fin 2) ⟨[], [], 0⟩ hy
  refine ⟨hy, h.1, h.2.1, ?_⟩
  rw [h.2.2 0]
  rfl

/-- C4: dividing any array by positive zero signals no error (the operation
is total) and yields, at every stored element, `+Infinity`, `-Infinity` or
`NaN`, following the IEEE-754 sign and zero rules: a positive finite
element gives `+Infinity`, a negative finite element gives `-Infinity`,
and a zero element (of either sign) gives `NaN`. -/
theorem rdivide_by_zero (x : EmxArray) (z0 : EmxArray) :
    (∀ i : ℕ, ∀ u : EDouble,
      (rdivide x (.fin 0) z0).data[i]? = some u →
      u = .pinf ∨ u = .ninf ∨ u = .nan) ∧
    (∀ v : ℚ, (0 < v → EDouble.divD (.fin v) (.fin 0) = .pinf) ∧
      (v < 0 → EDouble.divD (.fin v) (.fin 0) = .ninf)) ∧
    EDouble.divD (.fin 0) (.fin 0) = .nan ∧
    EDouble.divD .nzero (.fin 0) = .nan ∧
    EDouble.divD .pinf (.fin 0) = .pinf ∧
    EDouble.divD .ninf (.fin 0) = .ninf ∧
    EDouble.divD .nan (.fin 0) = .nan := by
  refine ⟨fun i u hu => ?_, fun v => ⟨fun hv => ?_, fun hv => ?_⟩,
    by simp [EDouble.divD, EDouble.qval], by simp [EDouble.divD, EDouble.qval],
    rfl, rfl, rfl⟩
  · have h : (x.data.map (fun xi => EDouble.divD xi (.fin 0)))[i]? = some u := by
      simpa [rdivide] using hu
    rw [List.getElem?_map] at h
    cases hx : x.data[i]? with
    | none => rw [hx] at h; simp at h
    | some xi =>
      rw [hx] at h
      simp at h
      rw [← h]
      exact divD_zero_cases xi
  · simp [EDouble.divD, EDouble.qval, EDouble.signBit, EDouble.mkInf,
      ne_of_gt hv, not_lt.mpr (le_of_lt hv)]
  · simp [EDouble.divD, EDouble.qval, EDouble.signBit, EDouble.mkInf,
      ne_of_lt hv, hv]

/-- Witness for C4: the array `[1.0]` divided by `+0.0` gives `+Infinity`,
and the scalar sign rules at `v = 1` and `v = -1`. -/
theorem rdivide_by_zero_witness :
    ((rdivide ⟨[.fin 1], [1], 1⟩ (.fin 0) ⟨[], [], 0⟩).data[0]? =
        some EDouble.pinf) ∧
    (EDouble.pinf = .pinf ∨ EDouble.pinf = .ninf ∨ EDouble.pinf = .nan) ∧
    (0 : ℚ) < 1 ∧ EDouble.divD (.fin 1) (.fin 0) = .pinf ∧
    (-1 : ℚ) < 0 ∧ EDouble.divD (.fin (-1)) (.fin 0) = .ninf := by
  have h := rdivide_by_zero ⟨[.fin 1], [1], 1⟩ ⟨[], [], 0⟩
  have h0 : (rdivide ⟨[.fin 1], [1], 1⟩ (.fin 0) ⟨[], [], 0⟩).data[0]? =
      some EDouble.pinf := by
    simp [rdivide, EDouble.divD, EDouble.qval, EDouble.signBit, EDouble.mkInf]
  exact ⟨h0, h.1 0 EDouble.pinf h0, by norm_num,
    (h.2.1 1).1 (by norm_num), by norm_num, (h.2.1 (-1)).2 (by norm_num)⟩

/-- C5: for every scalar `y` (including zero, infinite, or NaN), dividing an
empty array returns an empty array with the same shape descriptor; the
operation is total, so no error is ever signalled. -/
theorem rdivide_empty (x : EmxArray) (y : EDouble) (z0 : EmxArray)
    (hx : x.data = []) :
    (rdivide x y z0).data = [] ∧ (rdivide x y z0).size = x.size := by
  refine ⟨?_, rfl⟩
  simp [rdivide, hx]

/-- Witness for C5: the empty array divided by NaN. -/
theorem rdivide_empty_witness :
    (EmxArray.mk [] [0] 0).data = [] ∧
    ((rdivide ⟨[], [0], 0⟩ .nan ⟨[.fin 1], [1], 1⟩).data = [] ∧
      (rdivide ⟨[], [0], 0⟩ .nan ⟨[.fin 1], [1], 1⟩).size =
        (EmxArray.mk [] [0] 0).size) :=
  ⟨rfl, rdivide_empty ⟨[], [0], 0⟩ .nan ⟨[.fin 1], [1], 1⟩ rfl⟩

/-- C7: on every call, the output array's backing storage is allocated to
exactly the input's element count, and the result is completely independent
of any prior contents of the reused output storage (overwritten, never
merged). -/
theorem rdivide_storage (x : EmxArray) (y : EDouble) (z0 z0' : EmxArray) :
    (rdivide x y z0).allocatedSize = elemCount x ∧
    rdivide x y z0 = rdivide x y z0' :=
  ⟨rfl, rfl⟩

/-- C8: the size-descriptor invariant (element count implied by the
descriptor equals the number of stored values) holds for every array in
every state reachable through the divide call: if the input satisfies it,
both arrays in scope after the call satisfy it. -/
theorem rdivide_size_invariant (x : EmxArray) (y : EDouble) (z0 : EmxArray)
    (hx : sizeInv x) :
    sizeInv (rdivideCall x y z0).1 ∧ sizeInv (rdivideCall x y z0).2 := by
  refine ⟨hx, ?_⟩
  unfold sizeInv elemCount rdivideCall rdivide at *
  simp [hx]

/-- Witness for C8: a one-element array with a matching descriptor. -/
theorem rdivide_size_invariant_witness :
    sizeInv ⟨[.fin 1], [1], 1⟩ ∧
    (sizeInv (rdivideCall ⟨[.fin 1], [1], 1⟩ (.fin 2) ⟨[], [], 0⟩).1 ∧
      sizeInv (rdivideCall ⟨[.fin 1], [1], 1⟩ (.fin 2) ⟨[], [], 0⟩).2) :=
  ⟨by decide, rdivide_size_invariant ⟨[.fin 1], [1], 1⟩ (.fin 2) ⟨[], [], 0⟩
    (by decide)⟩

/-- C9: when allocation of the output's backing storage fails, the failure
is surfaced to the caller as an allocation-failure condition; when it
succeeds, the ordinary divide result is returned. -/
theorem rdivideAlloc_failure (alloc : ℕ → Bool) (x : EmxArray) (y : EDouble)
    (z0 : EmxArray) :
    (alloc (elemCount x) = false →
      rdivideAlloc alloc x y z0 = .error .allocFailure) ∧
    (alloc (elemCount x) = true →
      rdivideAlloc alloc x y z0 = .ok (rdivide x y z0)) := by
  constructor <;> intro h <;> simp [rdivideAlloc, h]

/-- Witness for C9: an allocator that always fails. -/
theorem rdivideAlloc_failure_witness :
    ((fun _ : ℕ => false) (elemCount ⟨[], [], 0⟩) = false) ∧
    rdivideAlloc (fun _ => false) ⟨[], [], 0⟩ .nan ⟨[], [], 0⟩ =
      .error .allocFailure :=
  ⟨rfl, (rdivideAlloc_failure (fun _ => false) ⟨[], [], 0⟩ .nan ⟨[], [], 0⟩).1
    rfl⟩

/-- C10: the divide call leaves the input array completely unchanged
(contents and size descriptor): in the state pair after the call, the first
component is the input `x` itself, and only the output component holds the
new array. -/
theorem rdivide_input_unchanged (x : EmxArray) (y : EDouble) (z0 : EmxArray) :
    (rdivideCall x y z0).1 = x ∧
    (rdivideCall x y z0).2 = rdivide x y z0 :=
  ⟨rfl, rfl⟩

/-! ### Helper lemmas about the scaled hypotenuse -/

theorem hypotScale_eq (v0 v1 : ℝ) :
    (if |v0| < |v1| then |v1| * Real.sqrt ((|v0| / |v1|) ^ 2 + 1)
     else if |v1| < |v0| then |v0| * Real.sqrt ((|v1| / |v0|) ^ 2 + 1)
     else |v0| * Real.sqrt 2) = Real.sqrt (v0 ^ 2 + v1 ^ 2) := by
  have h0 : (0:ℝ) ≤ |v0| := abs_nonneg v0
  have h1 : (0:ℝ) ≤ |v1| := abs_nonneg v1
  split_ifs with hab hba
  · have hb : (0:ℝ) < |v1| := lt_of_le_of_lt h0 hab
    have hb' : v1 ≠ 0 := abs_ne_zero.mp (ne_of_gt hb)
    rw [show |v1| * Real.sqrt ((|v0| / |v1|) ^ 2 + 1)
        = Real.sqrt (|v1| ^ 2) * Real.sqrt ((|v0| / |v1|) ^ 2 + 1) by
      rw [Real.sqrt_sq h1], ← Real.sqrt_mul (sq_nonneg _)]
    congr 1
    rw [div_pow, sq_abs, sq_abs]
    field_simp
  · have ha : (0:ℝ) < |v0| := lt_of_le_of_lt h1 hba
    have ha' : v0 ≠ 0 := abs_ne_zero.mp (ne_of_gt ha)
    rw [show |v0| * Real.sqrt ((|v1| / |v0|) ^ 2 + 1)
        = Real.sqrt (|v0| ^ 2) * Real.sqrt ((|v1| / |v0|) ^ 2 + 1) by
      rw [Real.sqrt_sq h0], ← Real.sqrt_mul (sq_nonneg _)]
    congr 1
    rw [div_pow, sq_abs, sq_abs]
    field_simp
    ring
  · have heq : |v0| = |v1| := le_antisymm (not_lt.mp hba) (not_lt.mp hab)
    have hsq : v0 ^ 2 = v1 ^ 2 := by rw [← sq_abs v0, ← sq_abs v1, heq]
    calc |v0| * Real.sqrt 2
        = Real.sqrt (|v0| ^ 2) * Real.sqrt 2 := by rw [Real.sqrt_sq h0]
      _ = Real.sqrt (|v0| ^ 2 * 2) := (Real.sqrt_mul (sq_nonneg _) 2).symm
      _ = Real.sqrt (v0 ^ 2 + v1 ^ 2) := by
          rw [sq_abs, show v0 ^ 2 * 2 = v0 ^ 2 + v1 ^ 2 by rw [← hsq]; ring]

theorem rt_hypotd_fin (v0 v1 : ℝ) :
    rt_hypotd_snf (.fin v0) (.fin v1) =
      if Real.sqrt (v0 ^ 2 + v1 ^ 2) ≤ maxDouble then
        .fin (Real.sqrt (v0 ^ 2 + v1 ^ 2)) else .pinf := by
  simp only [rt_hypotd_snf]
  rw [hypotScale_eq]

/-! ### Claim theorem: stable hypotenuse -/

/-- C3: `rt_hypotd_snf` computes `sqrt(u0² + u1²)` by scaling, so for all
finite inputs whose true hypotenuse is representable it returns exactly
`sqrt(u0² + u1²)`; `hypot(3,4) = 5`; `hypot(1e300, 1e300)` equals
`1e300·√2` and does not overflow to Infinity; `hypot(Infinity, 0)` is
Infinity; `hypot(NaN, 1)` is NaN. -/
theorem rt_hypotd_snf_contract :
    (∀ v0 v1 : ℝ, Real.sqrt (v0 ^ 2 + v1 ^ 2) ≤ maxDouble →
      rt_hypotd_snf (.fin v0) (.fin v1) = .fin (Real.sqrt (v0 ^ 2 + v1 ^ 2))) ∧
    rt_hypotd_snf (.fin 3) (.fin 4) = .fin 5 ∧
    rt_hypotd_snf (.fin 1e300) (.fin 1e300) = .fin (1e300 * Real.sqrt 2) ∧
    rt_hypotd_snf (.fin 1e300) (.fin 1e300) ≠ .pinf ∧
    rt_hypotd_snf .pinf (.fin 0) = .pinf ∧
    rt_hypotd_snf .nan (.fin 1) = .nan := by
  have hgen : ∀ v0 v1 : ℝ, Real.sqrt (v0 ^ 2 + v1 ^ 2) ≤ maxDouble →
      rt_hypotd_snf (.fin v0) (.fin v1) = .fin (Real.sqrt (v0 ^ 2 + v1 ^ 2)) :=
    fun v0 v1 h => by rw [rt_hypotd_fin, if_pos h]
  have h5 : Real.sqrt ((3:ℝ) ^ 2 + 4 ^ 2) = 5 := by
    rw [show ((3:ℝ) ^ 2 + 4 ^ 2) = 5 ^ 2 by norm_num]
    exact Real.sqrt_sq (by norm_num)
  have hmax5 : (5:ℝ) ≤ maxDouble := by unfold maxDouble; norm_num
  have hpos : (0:ℝ) < 1e300 := by norm_num
  have hs : Real.sqrt ((1e300:ℝ) ^ 2 + 1e300 ^ 2) = 1e300 * Real.sqrt 2 := by
    rw [show ((1e300:ℝ) ^ 2 + 1e300 ^ 2) = 1e300 ^ 2 * 2 by ring,
      Real.sqrt_mul (sq_nonneg _), Real.sqrt_sq hpos.le]
  have hsqrt2 : Real.sqrt 2 < 2 := by
    nlinarith [Real.sq_sqrt (by norm_num : (0:ℝ) ≤ 2), Real.sqrt_nonneg 2]
  have hbig : (1e300:ℝ) * Real.sqrt 2 ≤ maxDouble := by
    have h2 : (1e300:ℝ) * Real.sqrt 2 ≤ 1e300 * 2 := by nlinarith
    have h3 : (1e300:ℝ) * 2 ≤ maxDouble := by unfold maxDouble; norm_num
    linarith
  have he : rt_hypotd_snf (.fin 1e300) (.fin 1e300)
      = .fin (1e300 * Real.sqrt 2) := by
    rw [rt_hypotd_fin, hs, if_pos hbig]
  refine ⟨hgen, ?_, he, ?_, rfl, rfl⟩
  · rw [rt_hypotd_fin, h5, if_pos hmax5]
  · rw [he]
    simp

/-- Witness for C3: the representability hypothesis holds at (0, 0). -/
theorem rt_hypotd_snf_contract_witness :
    Real.sqrt ((0:ℝ) ^ 2 + 0 ^ 2) ≤ maxDouble ∧
    rt_hypotd_snf (.fin 0) (.fin 0) = .fin (Real.sqrt ((0:ℝ) ^ 2 + 0 ^ 2)) := by
  have h : Real.sqrt ((0:ℝ) ^ 2 + 0 ^ 2) ≤ maxDouble := by
    rw [show ((0:ℝ) ^ 2 + 0 ^ 2) = 0 by norm_num, Real.sqrt_zero]
    unfold maxDouble
    norm_num
  exact ⟨h, rt_hypotd_snf_contract.1 0 0 h⟩

end Ccfs
